import Mathlib

/- Formal model of the compare-locales localization-QA engine
   (compare_locales/parser.py and compare_locales/compare.py).

   Decoded text buffers are modelled as `List Char`; offsets are `Nat`.
   Regex matching is modelled by executable functions translated from the
   source patterns; the generic tokenization loop of `Parser.__iter__` is
   parameterized by the grammar's match functions. -/

/-- Half-open span `[start, stop)` into a buffer, as used by Entity and Junk. -/
structure Span where
  start : Nat
  stop : Nat
deriving DecidableEq

/-- Python slicing `buf[a:b]` on a text buffer (clamping; empty when `a ≥ b`). -/
def bufSlice (l : List Char) (a b : Nat) : List Char :=
  (l.drop a).take (b - a)

/-- Entity from parser.py: a localizable unit carrying the full span and the
sub-spans `pre_ws_span`, `pre_comment_span`, `def_span`, `key_span`,
`val_span`, `post_span` into the owning context buffer. -/
structure EntityData where
  span : Span
  pre_ws_span : Span
  pre_comment_span : Span
  def_span : Span
  key_span : Span
  val_span : Span
  post_span : Span
deriving DecidableEq

/-- A parsed item: an Entity, or a Junk block (junk carries the value of the
global `junkid` counter used for its synthetic key, plus its span). -/
inductive Item where
  | entity : EntityData → Item
  | junk : Nat → Span → Item
deriving DecidableEq

def Item.span : Item → Span
  | .entity e => e.span
  | .junk _ s => s

def Item.isJunk : Item → Bool
  | .entity _ => false
  | .junk _ _ => true

/-- Junk key format string `_junk_%d_%d-%d` from Junk.__init__. -/
def junkKey (id : Nat) (s : Span) : List Char :=
  ("_junk_" ++ toString id ++ "_" ++ toString s.start ++ "-" ++ toString s.stop).toList

/-- Entity.key / Junk.key: the decoded key of an item for a given buffer. -/
def Item.key (contents : List Char) : Item → List Char
  | .entity e => bufSlice contents e.key_span.start e.key_span.stop
  | .junk id s => junkKey id s

/-- The text an item covers (`Entity.all` / `Junk.all`). -/
def itemSlice (contents : List Char) (it : Item) : List Char :=
  bufSlice contents it.span.start it.span.stop

/-- The entity loop of Parser.__iter__: call getEntity while it yields an
item, threading the offset and the junkid counter. Fuel bounds the number of
iterations (the source loop terminates because every getEntity step advances
the offset; `tokenize` supplies `length + 1` fuel). -/
def tokenLoop (ge : Nat → Nat → Option (Item × Nat × Nat)) :
    Nat → Nat → Nat → List Item × Nat × Nat
  | 0, off, jid => ([], off, jid)
  | fuel + 1, off, jid =>
    match ge off jid with
    | none => ([], off, jid)
    | some (it, off', jid') =>
      let r := tokenLoop ge fuel off' jid'
      (it :: r.1, r.2)

/-- Result of one tokenization pass: header text, emitted items, footer text,
the final trailing Junk for leftover bytes past the footer (if any), and the
final junkid counter. -/
structure TokOut where
  header : List Char
  items : List Item
  footer : List Char
  trailing : Option Item
  endJid : Nat
deriving DecidableEq

/-- Parser.__iter__: consume the header once at offset 0, loop getEntity,
match the footer at the resulting offset, and emit one final trailing Junk
if bytes remain. `hdr` returns the header match end (the header text is the
buffer slice from 0); `foot` returns the footer match end at an offset. -/
def tokenize (hdr : List Char → Nat)
    (ge : List Char → Nat → Nat → Option (Item × Nat × Nat))
    (foot : List Char → Nat → Option Nat) (contents : List Char) (jid0 : Nat) :
    TokOut :=
  let e0 := hdr contents
  let r := tokenLoop (ge contents) (contents.length + 1) e0 jid0
  let o1 := r.2.1
  let jid1 := r.2.2
  match foot contents o1 with
  | some e =>
    if contents.length > e then
      ⟨bufSlice contents 0 e0, r.1, bufSlice contents o1 e,
        some (Item.junk (jid1 + 1) ⟨e, contents.length⟩), jid1 + 1⟩
    else
      ⟨bufSlice contents 0 e0, r.1, bufSlice contents o1 e, none, jid1⟩
  | none =>
    if contents.length > o1 then
      ⟨bufSlice contents 0 e0, r.1, [],
        some (Item.junk (jid1 + 1) ⟨o1, contents.length⟩), jid1 + 1⟩
    else
      ⟨bufSlice contents 0 e0, r.1, [], none, jid1⟩

/-- All emitted items in emission order, the trailing junk last (it is
yielded last by Parser.__iter__). -/
def TokOut.itemsAll (r : TokOut) : List Item :=
  r.items ++ r.trailing.toList

/-- Concatenation in the order claimed by the spec: header, then the spans
of all emitted entity/junk items in emission order (including the final
trailing junk), then the footer. -/
def claimConcat (contents : List Char) (r : TokOut) : List Char :=
  r.header ++ (r.itemsAll.map (itemSlice contents)).flatten ++ r.footer

/-- Concatenation in buffer order: header, the spans of the items emitted
before the footer was fixed, the footer, then the final trailing junk. -/
def bufferConcat (contents : List Char) (r : TokOut) : List Char :=
  r.header ++ (r.items.map (itemSlice contents)).flatten ++ r.footer ++
    ((r.trailing.map (itemSlice contents)).getD [])

/- ## Character classes and scanning primitives (Python `re` building blocks) -/
/-- Python `\s` (whitespace). -/
def isWS (c : Char) : Bool :=
  c = ' ' ∨ c = '\t' ∨ c = '\n' ∨ c = '\r' ∨ c = '\x0b' ∨ c = '\x0c'

/-- Python `[ \t]`. -/
def isTabSpace (c : Char) : Bool :=
  c = ' ' ∨ c = '\t'

/-- Python `\w` (ASCII word character). -/
def isWordChar (c : Char) : Bool :=
  ('a' ≤ c ∧ c ≤ 'z') ∨ ('A' ≤ c ∧ c ≤ 'Z') ∨ ('0' ≤ c ∧ c ≤ '9') ∨ c = '_'

/-- Length of the maximal prefix whose characters satisfy `p` (a greedy
`[class]*` step). -/
def scanWhile (p : Char → Bool) : List Char → Nat
  | [] => 0
  | c :: rest => if p c then scanWhile p rest + 1 else 0

/-- Length of the maximal suffix whose characters satisfy `p`. -/
def trailingCount (p : Char → Bool) (l : List Char) : Nat :=
  scanWhile p l.reverse

/-- Whether `pos` is at the start of a line (where re.M `^` matches). -/
def lineStart (l : List Char) (pos : Nat) : Bool :=
  pos == 0 || l[pos - 1]? == some '\n'

/- ## DefinesParser grammar (parser.py DefinesParser)

   reKey    = ^(\s*)((?:^#(?!define\s).*\s*)*)(#define[ \t]+(\w+)[ \t]+(.*?))([ \t]*$\n?)  (re.M)
   reHeader = ^\s*(#(?!define\s).*\s*)*
   reFooter = \s*(#(?!define\s).*\s*)*$  (re.M)
-/
/-- Negative lookahead `(?!define\s)` body: does the text start with
`define` followed by whitespace? -/
def startsWithDefineWS : List Char → Bool
  | 'd' :: 'e' :: 'f' :: 'i' :: 'n' :: 'e' :: c :: _ => isWS c
  | _ => false

/-- Does a `#(?!define\s)` comment line start here? -/
def isCmtStart : List Char → Bool
  | '#' :: rest => ¬ startsWithDefineWS rest
  | _ => false

/-- Greedy match length of `\s*(#(?!define\s).*\s*)*` on a suffix: runs of
whitespace interleaved with non-define `#` comment lines (`.` does not cross
newlines; the trailing `\s*` of each iteration does). -/
def dScan : Nat → List Char → Nat
  | 0, _ => 0
  | fuel + 1, l =>
    let w := scanWhile isWS l
    if isCmtStart (l.drop w) then
      let d := scanWhile (· != '\n') (l.drop w)
      w + d + dScan fuel ((l.drop w).drop d)
    else w

/-- DefinesParser.reHeader match end at offset 0 (the pattern always
matches, possibly with length 0; `.` cannot cross newlines, `\s*` can). -/
def definesHdrEnd (l : List Char) : Nat :=
  dScan (l.length + 1) l

/-- Greedy match end of reKey group 2 `(?:^#(?!define\s).*\s*)*` starting at
position `p`: comment lines that must each start at a line start (re.M `^`). -/
def dKeyG2 (l : List Char) : Nat → Nat → Nat
  | 0, p => p
  | fuel + 1, p =>
    if lineStart l p && isCmtStart (l.drop p) then
      dKeyG2 l fuel (p + scanWhile (· != '\n') (l.drop p) +
        scanWhile isWS (l.drop (p + scanWhile (· != '\n') (l.drop p))))
    else p

/-- reKey groups 3-6 `(#define[ \t]+(\w+)[ \t]+(.*?))([ \t]*$\n?)` matched
at `p2` (the lazy `(.*?)` stops so that only `[ \t]*` remains before the
re.M `$` at the end of the line; `\n?` then consumes the newline if there is
one). Returns `(keyStart, keyEnd, valStart, valEnd, matchEnd)`. -/
def definesDefMatch (l : List Char) (p2 : Nat) : Option (Nat × Nat × Nat × Nat × Nat) :=
  if (l.drop p2).take 7 = ['#', 'd', 'e', 'f', 'i', 'n', 'e'] then
    let t1 := scanWhile isTabSpace (l.drop (p2 + 7))
    if t1 = 0 then none else
    let k0 := p2 + 7 + t1
    let kn := scanWhile isWordChar (l.drop k0)
    if kn = 0 then none else
    let v0 := k0 + kn
    let t2 := scanWhile isTabSpace (l.drop v0)
    if t2 = 0 then none else
    let vs := v0 + t2
    let eol := vs + scanWhile (· != '\n') (l.drop vs)
    let ve := eol - trailingCount isTabSpace (bufSlice l vs eol)
    if l[eol]? = some '\n' then some (k0, v0, vs, ve, eol + 1)
    else some (k0, v0, vs, ve, eol)
  else none

/-- DefinesParser.reKey anchored match at `pos` (re.M): `^` must hold, then
greedy `(\s*)`, then group 2 comment lines, then the `#define` part. The
greedy choices are deterministic: both group 2 iterations and group 3 must
start with `#`, which is neither whitespace nor producible by shortening a
preceding greedy run, so no backtracking alternative can succeed where the
maximal runs fail. -/
def definesKeyMatchAt (l : List Char) (pos : Nat) : Option EntityData :=
  if lineStart l pos then
    let p1 := pos + scanWhile isWS (l.drop pos)
    let p2 := dKeyG2 l (l.length + 1) p1
    match definesDefMatch l p2 with
    | some (k0, k1, vs, ve, stop) =>
      some ⟨⟨pos, stop⟩, ⟨pos, p1⟩, ⟨p1, p2⟩, ⟨p2, ve⟩, ⟨k0, k1⟩, ⟨vs, ve⟩, ⟨ve, stop⟩⟩
    | none => none
  else none

/-- Back off from the greedy scan end to the nearest position at or after
`lo` (the match start) where the re.M `$` holds (end of buffer, or
immediately before a newline); the backtracking engine returns the largest
such end, and no match can end before its start. -/
def backToNLFrom (l : List Char) (lo : Nat) : Nat → Nat → Option Nat
  | 0, _ => none
  | fuel + 1, e =>
    if e = l.length ∨ l[e]? = some '\n' then some e
    else if e ≤ lo then none else backToNLFrom l lo fuel (e - 1)

/-- DefinesParser.reFooter `\s*(#(?!define\s).*\s*)*$` (re.M) anchored match
at `pos`: greedily scan whitespace and non-define comment lines, then back
off to the largest end position satisfying the multiline `$`. Every newline
position inside the scanned region is a valid truncation point of the
pattern, so the result is the backtracking engine's match end. -/
def definesFooterMatchAt (l : List Char) (pos : Nat) : Option Nat :=
  backToNLFrom l pos (dScan (l.length + 1) (l.drop pos) + 1)
    (pos + dScan (l.length + 1) (l.drop pos))

/-- Model of `reKey.search(contents, offset)`: the leftmost position at or after
`off` (up to the end of the buffer) where the anchored key pattern matches. -/
def searchFrom {α : Type} (f : Nat → Option α) (limit : Nat) : Nat → Nat → Option Nat
  | 0, _ => none
  | fuel + 1, p =>
    if (f p).isSome then some p
    else if p < limit then searchFrom f limit fuel (p + 1) else none

/-- Parser.getEntity with the DefinesParser patterns: try the anchored key
match; on failure return None if the footer has a non-empty match here;
otherwise search for the next key match and emit a Junk up to it. -/
def definesGE (l : List Char) (off jid : Nat) : Option (Item × Nat × Nat) :=
  match definesKeyMatchAt l off with
  | some ed => some (Item.entity ed, ed.span.stop, jid)
  | none =>
    match definesFooterMatchAt l off with
    | some e =>
      if off < e then none
      else
        match searchFrom (definesKeyMatchAt l) l.length (l.length + 1 - off) off with
        | some p => some (Item.junk (jid + 1) ⟨off, p⟩, p, jid + 1)
        | none => none
    | none =>
      match searchFrom (definesKeyMatchAt l) l.length (l.length + 1 - off) off with
      | some p => some (Item.junk (jid + 1) ⟨off, p⟩, p, jid + 1)
      | none => none

/-- Tokenization with the DefinesParser grammar. -/
def definesTokenize (l : List Char) (jid0 : Nat) : TokOut :=
  tokenize definesHdrEnd definesGE definesFooterMatchAt l jid0

/-- Input buffer for the round-trip counterexample: a define, then a comment
line (matched as footer), then unparsable text (emitted as a trailing Junk
after the footer was fixed). -/
def c1input : List Char := "#define a b\n# foo\nxyz".toList

/- ## PropertiesParser grammar (parser.py PropertiesParser)

   reKey    = ^(\s*)((?:[#!].*?\n\s*)*)([^#!\s\n][^=:\n]*?)\s*[:=][ \t]*  (re.M)
   reHeader = ^\s*([#!].*\s*)+
   reFooter = \s*([#!].*\s*)*$
   _escapedEnd = \\+$     _trailingWS = [ \t]*$
-/
/-- Does a `[#!]` properties comment start here? -/
def isPropCmt (c : Char) : Bool :=
  c = '#' ∨ c = '!'

/-- Head-of-suffix comment test. -/
def propCmtHead : List Char → Bool
  | c :: _ => isPropCmt c
  | [] => false

/-- Greedy match length of `\s*([#!].*\s*)*` on a suffix (the shared shape of
the properties header and footer; `.` does not cross newlines, `\s*` does). -/
def pScan : Nat → List Char → Nat
  | 0, _ => 0
  | fuel + 1, l =>
    let w := scanWhile isWS l
    if propCmtHead (l.drop w) then
      let d := scanWhile (· != '\n') (l.drop w)
      w + d + pScan fuel ((l.drop w).drop d)
    else w

/-- Substring containment, Python `needle in hay`. -/
def containsSub (hay needle : List Char) : Bool :=
  (List.range (hay.length + 1)).any (fun i => (hay.drop i).take needle.length == needle)

/-- PropertiesParser.reHeader `^\s*([#!].*\s*)+` match end at offset 0
(at least one comment group), or none. -/
def propHeaderMatch (l : List Char) : Option Nat :=
  if propCmtHead (l.drop (scanWhile isWS l)) then some (pScan (l.length + 1) l)
  else none

/-- PropertiesParser.getHeader: keep the header match only when the matched
candidate contains the MPL or LICENSE BLOCK marker; otherwise the offset
stays 0 and the header is empty. -/
def propHdrEnd (l : List Char) : Nat :=
  match propHeaderMatch l with
  | some e =>
    if containsSub (bufSlice l 0 e) "http://mozilla.org/MPL/2.0/".toList
        || containsSub (bufSlice l 0 e) "LICENSE BLOCK".toList then e
    else 0
  | none => 0

/-- reKey group 2 `((?:[#!].*?\n\s*)*)` greedy iterations on a suffix: a
comment line (`.*?` lazily up to the first newline, which `.` cannot cross),
the newline, then `\s*`; an unterminated comment line fails the iteration. -/
def pKeyG2 : Nat → List Char → Nat
  | 0, _ => 0
  | fuel + 1, l =>
    if propCmtHead l then
      let d := scanWhile (· != '\n') l
      if d < l.length then
        let w := scanWhile isWS (l.drop (d + 1))
        d + 1 + w + pKeyG2 fuel (l.drop (d + 1 + w))
      else 0
    else 0

/-- reKey group 3 tail `[^=:\n]*?)\s*[:=][ \t]*` from position `j` (just
after the key's first character): lazily extend the key until optional
whitespace (which may span newlines) reaches a `:` or `=`; then consume the
greedy `[ \t]*`. Returns (keyEnd, matchEnd). -/
def pKeyTail (l : List Char) : Nat → Nat → Option (Nat × Nat)
  | 0, _ => none
  | fuel + 1, j =>
    let w := j + scanWhile isWS (l.drop j)
    if l[w]? = some ':' ∨ l[w]? = some '=' then
      some (j, w + 1 + scanWhile isTabSpace (l.drop (w + 1)))
    else
      match l[j]? with
      | some cj =>
        if cj = '=' ∨ cj = ':' ∨ cj = '\n' then none else pKeyTail l fuel (j + 1)
      | none => none

/-- PropertiesParser.reKey anchored match at `pos` (re.M `^` must hold). The
greedy and lazy choices are deterministic: group 2 iterations start with
`[#!]` and group 3 with a non-comment non-whitespace character, so no
backtracking alternative can succeed where the maximal runs fail. Returns
`(preEnd, cmtEnd, keyEnd, matchEnd)`: group spans are pre `[pos, preEnd)`,
comments `[preEnd, cmtEnd)`, key `[cmtEnd, keyEnd)`. -/
def propKeyMatchAt (l : List Char) (pos : Nat) : Option (Nat × Nat × Nat × Nat) :=
  if lineStart l pos then
    let p1 := pos + scanWhile isWS (l.drop pos)
    let p2 := p1 + pKeyG2 (l.length + 1) (l.drop p1)
    match l[p2]? with
    | some c =>
      if isPropCmt c || isWS c then none
      else
        match pKeyTail l (l.length + 1) (p2 + 1) with
        | some (keyEnd, matchEnd) => some (p1, p2, keyEnd, matchEnd)
        | none => none
    | none => none
  else none

/-- Model of Python `contents.find` for a newline: index of the first newline at or after
`offset`, if any. -/
def findNL (l : List Char) (off : Nat) : Option Nat :=
  if off + scanWhile (· != '\n') (l.drop off) < l.length then
    some (off + scanWhile (· != '\n') (l.drop off))
  else none

/-- Model of `_escapedEnd` (pattern `\\+$`) searched in region `[off, nextline)`: the length
of the maximal run of trailing backslashes of the region (the match group
when non-zero; no match when zero). -/
def escapedEndCount (l : List Char) (off nextline : Nat) : Nat :=
  trailingCount (· == '\\') (bufSlice l off nextline)

/-- The value-continuation loop of PropertiesParser.getEntity: line by line,
stop at a newline unless it is escaped (an odd number of trailing
backslashes); `2*n` backslashes mean an escaped backslash, not an escaped
newline. Returns (endval, offset). -/
def propValueLoop (l : List Char) : Nat → Nat → Nat × Nat
  | 0, off => (off, off)
  | fuel + 1, off =>
    match findNL l off with
    | none => (l.length, l.length)
    | some nl =>
      if escapedEndCount l off nl = 0 then (nl, nl + 1)
      else if escapedEndCount l off nl % 2 = 0 then (nl, nl + 1)
      else propValueLoop l fuel (nl + 1)

/-- Model of `_trailingWS` (pattern `[ \t]*$`, no re.M) searched in region `[valStart, off)`:
the length of the `[ \t]` run immediately before the region's final newline
(or before its end when it does not end in a newline). -/
def propTrailingWS (l : List Char) (valStart off : Nat) : Nat :=
  if l[off - 1]? = some '\n' then
    trailingCount isTabSpace (bufSlice l valStart (off - 1))
  else
    trailingCount isTabSpace (bufSlice l valStart off)

/-- PropertiesParser.getEntity: match the key pattern, parse the value line
by line, strip trailing `[ \t]` from the value span. The override has no
footer check; on key-match failure it searches for the next key match and
emits Junk up to it. -/
def propGE (l : List Char) (off jid : Nat) : Option (Item × Nat × Nat) :=
  match propKeyMatchAt l off with
  | some (p1, p2, keyEnd, mEnd) =>
    let r := propValueLoop l (l.length + 1) mEnd
    some (Item.entity ⟨⟨off, r.2⟩, ⟨off, p1⟩, ⟨p1, p2⟩, ⟨p2, r.2⟩, ⟨p2, keyEnd⟩,
      ⟨mEnd, r.1 - propTrailingWS l mEnd r.2⟩, ⟨r.2, r.2⟩⟩, r.2, jid)
  | none =>
    match searchFrom (propKeyMatchAt l) l.length (l.length + 1 - off) off with
    | some p => some (Item.junk (jid + 1) ⟨off, p⟩, p, jid + 1)
    | none => none

/-- PropertiesParser.reFooter `\s*([#!].*\s*)*$` (no re.M): `$` can only
hold at the end of the buffer (a final newline would itself be consumed by
`\s*`), so the match succeeds exactly when the greedy scan covers the whole
remainder. -/
def propFooterMatchAt (l : List Char) (pos : Nat) : Option Nat :=
  if pos + pScan (l.length + 1) (l.drop pos) = l.length then some l.length
  else none

/-- Tokenization with the PropertiesParser grammar. -/
def propTokenize (l : List Char) (jid0 : Nat) : TokOut :=
  tokenize propHdrEnd propGE propFooterMatchAt l jid0

/- ## Parser.parse (list and key-to-index map) -/
/-- Python dict lookup: the last binding wins. -/
def dictGet (m : List (List Char × Nat)) (k : List Char) : Option Nat :=
  (m.reverse.find? (fun p => p.1 == k)).map Prod.snd

/-- The (key, index) pairs written by Parser.parse's loop
`for e in self: m[e.key] = len(l); l.append(e)`, in emission order,
starting at index `i`. -/
def parsePairs : List (List Char) → Nat → List (List Char × Nat)
  | [], _ => []
  | k :: rest, i => (k, i) :: parsePairs rest (i + 1)

/-- Parser.parse: returns the emitted items as a list together with the
key-to-index mapping. -/
def parseFold (key : Item → List Char) (items : List Item) :
    List Item × List (List Char × Nat) :=
  (items, parsePairs (items.map key) 0)

/-- Duplicate-key input for claims about key uniqueness. -/
def c2input : List Char := "a=1\na=2\n".toList

/-- Odd-backslash continuation input: `k=a\` then newline then `b`. -/
def c7input : List Char := "k=a\\\nb\n".toList

/- ## AddRemove (compare.py): stable set difference over two key collections -/
/-- AddRemove with the default ordering key (`key=None` at the only call
site, so `sorted` uses the natural ordering of the keys themselves):
set_left / set_right convert the inputs to sets (modelled as deduplicated
lists), and iteration yields the sorted union with each item tagged `equal`
(in both), `delete` (left only) or `add` (right only). -/
def addRemoveIter (left right : List (List Char)) : List (String × List Char) :=
  (((left ++ right).dedup).insertionSort (· ≤ ·)).map (fun item =>
    if item ∈ left ∧ item ∈ right then ("equal", item)
    else if item ∈ left then ("delete", item)
    else ("add", item))

/- ## ContentComparer.merge and the missing-entity queue (compare.py) -/
/-- A reference entity as merge uses it: decoded key and full source text
(`Entity.all`). -/
structure RefEnt where
  key : List Char
  all : List Char
deriving DecidableEq

/-- A queued skip item (a Junk block or a checker-flagged entity): its key,
its span into the localized buffer, and whether it is Junk. -/
structure SkipItem where
  key : List Char
  span : Span
  isJunk : Bool
deriving DecidableEq

/-- ensureNewline from ContentComparer.merge. -/
def ensureNewline (s : List Char) : List Char :=
  if s.getLast? = some '\n' then s else s ++ ['\n']

/-- Lookup `ref_entities[ref_map[key]].all`; `none` models the KeyError/IndexError
a failed lookup would raise. -/
def lookupAll (ents : List RefEnt) (m : List (List Char × Nat)) (k : List Char) :
    Option (List Char) :=
  (dictGet m k).bind (fun i => ents[i]?.map RefEnt.all)

/-- The splice loop of merge: copy the localized buffer while excluding
every skip span (write `[offset, span.start)`, resume at `span.stop`). -/
def spliceOut (l : List Char) : Nat → List SkipItem → List Char
  | off, [] => bufSlice l off l.length
  | off, s :: rest => bufSlice l off s.span.start ++ spliceOut l s.span.stop rest

/-- ContentComparer.merge, as the contents written to the merge target.
If the grammar cannot merge, copy the reference file byte-for-byte and stop.
Otherwise sort the skips into file order (they arrive in key order), copy
the localized buffer with the skip spans spliced out (copied whole when
there are no skips), and append `'\n'` followed by the full reference text
of every missing entity and of every non-Junk skip, each chunk forced to end
in a newline. -/
def mergeContent (ents : List RefEnt) (m : List (List Char × Nat))
    (refContents l10nContents : List Char) (missing : List (List Char))
    (skips : List SkipItem) (canMerge : Bool) : Option (List Char) :=
  if ¬ canMerge then some refContents
  else
    match missing.mapM (lookupAll ents m),
        (((skips.insertionSort (fun a b => a.span.start ≤ b.span.start)).filter
          (fun s => ¬ s.isJunk)).map SkipItem.key).mapM (lookupAll ents m) with
    | some missingTexts, some skipTexts =>
      some ((if skips.insertionSort (fun a b => a.span.start ≤ b.span.start) = []
          then l10nContents
          else spliceOut l10nContents 0
            (skips.insertionSort (fun a b => a.span.start ≤ b.span.start)))
        ++ ((['\n'] :: missingTexts ++ skipTexts).map ensureNewline).flatten)
    | _, _ => none

/-- The missing-entity queue built by ContentComparer.compare: iterate the
diff and, for each `delete` action whose notify verdict is `error` (a hard
miss, not an ignore or a soft report), append the key — so the queue is in
the diff iteration's sorted-key order. `verdict` abstracts the observers'
filter decision for missingEntity events. -/
def computeMissings (verdict : List Char → String)
    (refKeys l10nKeys : List (List Char)) : List (List Char) :=
  (addRemoveIter refKeys l10nKeys).filterMap (fun p =>
    if p.1 = "delete" ∧ verdict p.2 = "error" then some p.2 else none)

/-- Reference entities of the counterexample file `b=2\na=1\n`
in reference-file order (b first, a second). -/
def c4ents : List RefEnt :=
  [⟨['b'], "b=2\n".toList⟩, ⟨['a'], "a=1\n".toList⟩]

/-- The reference key-to-index map for `c4ents`. -/
def c4map : List (List Char × Nat) := [(['b'], 0), (['a'], 1)]

/-- Grammar merge-capability flags: Parser.canMerge defaults to True, and
DefinesParser sets canMerge = False (`#unfilter` needs to be the last item,
which append-based merging does not support). -/
structure GrammarCaps where
  canMerge : Bool

def parserCaps : GrammarCaps := ⟨true⟩

def definesCaps : GrammarCaps := ⟨false⟩

/- ## ContentComparer.notify (compare.py) -/
/-- ContentComparer.notify over the attached observers' verdicts: build the
set of verdicts; if all are `ignore` return `ignore` without notifying the
statistics-only observers; otherwise discard `ignore`, notify the stat
observers, return `error` if any verdict is `error`, and otherwise assert
that exactly one distinct verdict remains and return it. The result pairs
the aggregate verdict with whether stat observers were notified; `none`
models the assertion failure. -/
def notifyAgg (rvs0 : List String) : Option (String × Bool) :=
  let rvs := rvs0.dedup
  if rvs.all (· == "ignore") then some ("ignore", false)
  else
    match (rvs.filter (· != "ignore")).contains "error",
        rvs.filter (· != "ignore") with
    | true, _ => some ("error", true)
    | false, [v] => some (v, true)
    | false, _ => none

/- ## Observer completion rates (compare.py Observer.toExhibit / serialize) -/
/-- Lookup in a per-locale summary (category, count) association (Python
dict semantics: last binding wins; `k in summary` is `isSome`). -/
def summaryGet (sm : List (String × Nat)) (k : String) : Option Nat :=
  (sm.reverse.find? (fun p => p.1 == k)).map Prod.snd

/-- The classified-entry total of Observer.toExhibit and Observer.serialize:
the sum of the summary values for changed, unchanged, report, missing and
missingInFiles (absent categories contribute nothing). -/
def summaryTotal (sm : List (String × Nat)) : Nat :=
  (["changed", "unchanged", "report", "missing", "missingInFiles"].map
    (fun k => (summaryGet sm k).getD 0)).sum

/-- The numerator expression `summary.get('changed', 0) * 100` of the rate, as the code writes it with `and`/`or` short-circuiting. -/
def changedTimes100 (sm : List (String × Nat)) : Nat :=
  match summaryGet sm "changed" with
  | some c => c * 100
  | none => 0

/-- Observer.toExhibit completion rate: `changed*100 / total` with no zero
guard — `none` models the ZeroDivisionError raised when the total is 0. -/
def exhibitRate (sm : List (String × Nat)) : Option Nat :=
  if summaryTotal sm = 0 then none
  else some (changedTimes100 sm / summaryTotal sm)

/-- Observer.serialize completion rate: 0 when the total is 0, otherwise the
same integer division as toExhibit. -/
def serializeRate (sm : List (String × Nat)) : Nat :=
  if summaryTotal sm = 0 then 0
  else changedTimes100 sm / summaryTotal sm

/- ## Theorems -/

theorem bufSlice_self (l : List Char) (a : Nat) : bufSlice l a a = [] := by
  simp [bufSlice]

theorem bufSlice_append (l : List Char) {a b c : Nat} (hab : a ≤ b) (hbc : b ≤ c) :
    bufSlice l a b ++ bufSlice l b c = bufSlice l a c := by
  unfold bufSlice
  have hdrop : l.drop b = (l.drop a).drop (b - a) := by
    rw [List.drop_drop]
    congr 1
    omega
  rw [hdrop, ← List.take_add]
  congr 1
  omega

theorem bufSlice_full (l : List Char) : bufSlice l 0 l.length = l := by
  simp [bufSlice]

theorem bufSlice_assemble (l : List Char) {a b c : Nat}
    (h1 : a ≤ b) (h2 : b ≤ c) (h3 : c ≤ l.length) :
    bufSlice l 0 a ++ (bufSlice l a b ++ (bufSlice l b c ++ bufSlice l c l.length)) = l := by
  rw [bufSlice_append l h2 h3, bufSlice_append l h1 (le_trans h2 h3),
    bufSlice_append l (Nat.zero_le a) (le_trans h1 (le_trans h2 h3))]
  exact bufSlice_full l

theorem tokenLoop_slice (ge : Nat → Nat → Option (Item × Nat × Nat)) (l : List Char)
    (hg : ∀ off jid it off' jid', ge off jid = some (it, off', jid') →
      Item.span it = ⟨off, off'⟩ ∧ off ≤ off' ∧ off' ≤ l.length) :
    ∀ fuel off jid, off ≤ l.length →
      ((tokenLoop ge fuel off jid).1.map (itemSlice l)).flatten
          = bufSlice l off (tokenLoop ge fuel off jid).2.1 ∧
        off ≤ (tokenLoop ge fuel off jid).2.1 ∧
        (tokenLoop ge fuel off jid).2.1 ≤ l.length := by
  intro fuel
  induction fuel with
  | zero =>
    intro off jid hoff
    simp [tokenLoop, bufSlice_self, hoff]
  | succ n ih =>
    intro off jid hoff
    rcases h : ge off jid with _ | ⟨it, off', jid'⟩
    · simp [tokenLoop, h, bufSlice_self, hoff]
    · obtain ⟨hspan, hle, hlen⟩ := hg off jid it off' jid' h
      obtain ⟨ihj, ihl, ihr⟩ := ih off' jid' hlen
      simp only [tokenLoop, h, List.map_cons, List.flatten_cons]
      refine ⟨?_, by omega, ihr⟩
      rw [ihj, itemSlice, hspan]
      exact bufSlice_append l hle ihl

/-- C1 (amended): round-trip totality holds in buffer order. For every
buffer and every grammar whose header, entity and footer matchers respect
the anchored-match contract of Python `re` (an anchored match starts at the
given offset and ends within the buffer), concatenating the header, the
spans of the items emitted before the footer, the footer, and then the span
of the final trailing Junk (when present) reproduces the buffer exactly; no
byte is unaccounted for. (The order the spec claims, with the trailing Junk
span placed before the footer, fails: see the counterexample.) -/
theorem tokenize_roundtrip (hdr : List Char → Nat)
    (ge : List Char → Nat → Nat → Option (Item × Nat × Nat))
    (foot : List Char → Nat → Option Nat) (contents : List Char) (jid0 : Nat)
    (hh : hdr contents ≤ contents.length)
    (hg : ∀ off jid it off' jid', ge contents off jid = some (it, off', jid') →
      Item.span it = ⟨off, off'⟩ ∧ off ≤ off' ∧ off' ≤ contents.length)
    (hf : ∀ off e, foot contents off = some e → off ≤ e ∧ e ≤ contents.length) :
    bufferConcat contents (tokenize hdr ge foot contents jid0) = contents := by
  obtain ⟨hjoin, hlo, hhi⟩ :=
    tokenLoop_slice (ge contents) contents hg (contents.length + 1) (hdr contents) jid0 hh
  unfold tokenize bufferConcat
  rcases hft : foot contents
      (tokenLoop (ge contents) (contents.length + 1) (hdr contents) jid0).2.1 with _ | e
  · by_cases hrem : contents.length >
        (tokenLoop (ge contents) (contents.length + 1) (hdr contents) jid0).2.1
    · simp only [hft, hrem, if_true, hjoin, List.append_nil, List.append_assoc]
      simpa [itemSlice, Item.span, bufSlice_self] using
        bufSlice_assemble contents hlo le_rfl hhi
    · have heq : (tokenLoop (ge contents) (contents.length + 1)
          (hdr contents) jid0).2.1 = contents.length := by omega
      simp only [hft, hrem, if_false, hjoin, List.append_nil, List.append_assoc]
      simpa [heq, bufSlice_self] using
        bufSlice_assemble contents hlo (le_of_eq heq) le_rfl
  · obtain ⟨hfe1, hfe2⟩ := hf _ e hft
    by_cases hrem : contents.length > e
    · simp only [hft, hrem, if_true, hjoin, List.append_assoc]
      simpa [itemSlice, Item.span] using bufSlice_assemble contents hlo hfe1 hfe2
    · have heq : e = contents.length := by omega
      simp only [hft, hrem, if_false, hjoin, List.append_nil, List.append_assoc]
      subst heq
      simpa [bufSlice_self] using bufSlice_assemble contents hlo hfe1 le_rfl

theorem scanWhile_le (p : Char → Bool) : ∀ l : List Char, scanWhile p l ≤ l.length
  | [] => by simp [scanWhile]
  | c :: rest => by
    by_cases h : p c
    · simp only [scanWhile, h, if_true, List.length_cons]
      exact Nat.succ_le_succ (scanWhile_le p rest)
    · simp [scanWhile, h]

theorem dScan_le : ∀ (fuel : Nat) (l : List Char), dScan fuel l ≤ l.length := by
  intro fuel
  induction fuel with
  | zero => intro l; simp [dScan]
  | succ n ih =>
    intro l
    by_cases h : isCmtStart (l.drop (scanWhile isWS l))
    · simp only [dScan, h, if_true]
      have h1 := scanWhile_le isWS l
      have h2 := scanWhile_le (· != '\n') (l.drop (scanWhile isWS l))
      have h3 := ih ((l.drop (scanWhile isWS l)).drop
        (scanWhile (· != '\n') (l.drop (scanWhile isWS l))))
      simp only [List.length_drop] at h2 h3
      omega
    · simp only [dScan, h, if_false]
      exact scanWhile_le isWS l

theorem definesHdrEnd_le (l : List Char) : definesHdrEnd l ≤ l.length :=
  dScan_le (l.length + 1) l

theorem dKeyG2_ge (l : List Char) : ∀ (fuel p : Nat), p ≤ dKeyG2 l fuel p := by
  intro fuel
  induction fuel with
  | zero => intro p; simp [dKeyG2]
  | succ n ih =>
    intro p
    by_cases h : lineStart l p && isCmtStart (l.drop p)
    · simp only [dKeyG2, h, if_true]
      calc p ≤ p + scanWhile (· != '\n') (l.drop p) +
            scanWhile isWS (l.drop (p + scanWhile (· != '\n') (l.drop p))) := by omega
        _ ≤ _ := ih _
    · simp [dKeyG2, h]

theorem definesDefMatch_bounds (l : List Char) (p2 : Nat)
    (k0 k1 vs ve stop : Nat)
    (h : definesDefMatch l p2 = some (k0, k1, vs, ve, stop)) :
    p2 < stop ∧ stop ≤ l.length := by
  simp only [definesDefMatch] at h
  split at h
  case isTrue h7 =>
    have hlen7 : p2 + 7 ≤ l.length := by
      have := congrArg List.length h7
      simp only [List.length_take, List.length_drop, List.length_cons,
        List.length_nil] at this
      omega
    split at h
    · exact absurd h (by simp)
    split at h
    · exact absurd h (by simp)
    split at h
    · exact absurd h (by simp)
    case isFalse ht1 ht2 ht3 =>
      have hb1 := scanWhile_le isTabSpace (l.drop (p2 + 7))
      simp only [List.length_drop] at hb1
      have hb2 := scanWhile_le isWordChar
        (l.drop (p2 + 7 + scanWhile isTabSpace (l.drop (p2 + 7))))
      simp only [List.length_drop] at hb2
      have hb3 := scanWhile_le isTabSpace
        (l.drop (p2 + 7 + scanWhile isTabSpace (l.drop (p2 + 7)) +
          scanWhile isWordChar
            (l.drop (p2 + 7 + scanWhile isTabSpace (l.drop (p2 + 7))))))
      simp only [List.length_drop] at hb3
      have hb4 := scanWhile_le (· != '\n')
        (l.drop (p2 + 7 + scanWhile isTabSpace (l.drop (p2 + 7)) +
          scanWhile isWordChar
            (l.drop (p2 + 7 + scanWhile isTabSpace (l.drop (p2 + 7)))) +
          scanWhile isTabSpace
            (l.drop (p2 + 7 + scanWhile isTabSpace (l.drop (p2 + 7)) +
              scanWhile isWordChar
                (l.drop (p2 + 7 + scanWhile isTabSpace (l.drop (p2 + 7))))))))
      simp only [List.length_drop] at hb4
      split at h
      case isTrue hnl =>
        have := List.getElem?_eq_some_iff.mp hnl
        obtain ⟨hlt, -⟩ := this
        injection h with h
        injection h with h1 h
        injection h with h2 h
        injection h with h3 h
        injection h with h4 h5
        omega
      case isFalse hnl =>
        injection h with h
        injection h with h1 h
        injection h with h2 h
        injection h with h3 h
        injection h with h4 h5
        omega
  case isFalse => exact absurd h (by simp)

theorem definesKeyMatchAt_bounds (l : List Char) (pos : Nat) (ed : EntityData)
    (h : definesKeyMatchAt l pos = some ed) :
    ed.span.start = pos ∧ pos ≤ ed.span.stop ∧ ed.span.stop ≤ l.length := by
  simp only [definesKeyMatchAt] at h
  split at h
  case isTrue hls =>
    rcases hdm : definesDefMatch l
        (dKeyG2 l (l.length + 1) (pos + scanWhile isWS (l.drop pos))) with
      _ | ⟨k0, k1, vs, ve, stop⟩
    · rw [hdm] at h
      exact absurd h (by simp)
    · rw [hdm] at h
      obtain ⟨hlt, hle⟩ := definesDefMatch_bounds l _ k0 k1 vs ve stop hdm
      have hge := dKeyG2_ge l (l.length + 1) (pos + scanWhile isWS (l.drop pos))
      injection h with h
      subst h
      refine ⟨rfl, ?_, hle⟩
      simp only [Span.mk.injEq]
      omega
  case isFalse => exact absurd h (by simp)

theorem backToNLFrom_bounds (l : List Char) (lo : Nat) : ∀ (fuel e e' : Nat),
    lo ≤ e → backToNLFrom l lo fuel e = some e' →
    lo ≤ e' ∧ e' ≤ e ∧ (e' = l.length ∨ l[e']? = some '\n') := by
  intro fuel
  induction fuel with
  | zero => intro e e' _ h; exact absurd h (by simp [backToNLFrom])
  | succ n ih =>
    intro e e' hlo h
    simp only [backToNLFrom] at h
    split at h
    case isTrue hc =>
      injection h with h
      subst h
      exact ⟨hlo, le_rfl, hc⟩
    case isFalse hc =>
      split at h
      · exact absurd h (by simp)
      case isFalse hgt =>
        obtain ⟨h1, h2, h3⟩ := ih (e - 1) e' (by omega) h
        exact ⟨h1, by omega, h3⟩

theorem definesFooterMatchAt_bounds (l : List Char) (pos e : Nat)
    (h : definesFooterMatchAt l pos = some e) : pos ≤ e ∧ e ≤ l.length := by
  unfold definesFooterMatchAt at h
  obtain ⟨h1, h2, h3⟩ := backToNLFrom_bounds l pos _ _ e (Nat.le_add_right pos _) h
  rcases h3 with h3 | h3
  · omega
  · obtain ⟨hlt, -⟩ := List.getElem?_eq_some_iff.mp h3
    omega

theorem searchFrom_bounds {α : Type} (f : Nat → Option α) (limit : Nat) :
    ∀ (fuel p p' : Nat), searchFrom f limit fuel p = some p' →
      p ≤ p' ∧ (f p').isSome := by
  intro fuel
  induction fuel with
  | zero => intro p p' h; exact absurd h (by simp [searchFrom])
  | succ n ih =>
    intro p p' h
    simp only [searchFrom] at h
    split at h
    case isTrue hs =>
      injection h with h
      subst h
      exact ⟨le_rfl, hs⟩
    case isFalse hs =>
      split at h
      · obtain ⟨h1, h2⟩ := ih (p + 1) p' h
        exact ⟨by omega, h2⟩
      · exact absurd h (by simp)

theorem definesGE_contract (l : List Char) (off jid : Nat) (it : Item)
    (off' jid' : Nat) (h : definesGE l off jid = some (it, off', jid')) :
    Item.span it = ⟨off, off'⟩ ∧ off ≤ off' ∧ off' ≤ l.length := by
  have hjunk : ∀ p : Nat,
      searchFrom (definesKeyMatchAt l) l.length (l.length + 1 - off) off = some p →
      off ≤ p ∧ p ≤ l.length := by
    intro p hs
    obtain ⟨hple, hpsome⟩ := searchFrom_bounds (definesKeyMatchAt l) l.length _ off p hs
    rcases hed : definesKeyMatchAt l p with _ | ed2
    · rw [hed] at hpsome
      simp at hpsome
    · obtain ⟨hb1, hb2, hb3⟩ := definesKeyMatchAt_bounds l p ed2 hed
      exact ⟨hple, by omega⟩
  unfold definesGE at h
  rcases hk : definesKeyMatchAt l off with _ | ed
  · simp only [hk] at h
    rcases hf : definesFooterMatchAt l off with _ | e
    · simp only [hf] at h
      rcases hs : searchFrom (definesKeyMatchAt l) l.length (l.length + 1 - off) off
        with _ | p
      · simp only [hs] at h
        exact absurd h (by simp)
      · simp only [hs, Option.some.injEq, Prod.mk.injEq] at h
        obtain ⟨h1, h2, h3⟩ := h
        subst h1 h2
        exact ⟨rfl, (hjunk p hs).1, (hjunk p hs).2⟩
    · simp only [hf] at h
      split at h
      · exact absurd h (by simp)
      · rcases hs : searchFrom (definesKeyMatchAt l) l.length (l.length + 1 - off) off
          with _ | p
        · simp only [hs] at h
          exact absurd h (by simp)
        · simp only [hs, Option.some.injEq, Prod.mk.injEq] at h
          obtain ⟨h1, h2, h3⟩ := h
          subst h1 h2
          exact ⟨rfl, (hjunk p hs).1, (hjunk p hs).2⟩
  · simp only [hk, Option.some.injEq, Prod.mk.injEq] at h
    obtain ⟨h1, h2, h3⟩ := h
    obtain ⟨hb1, hb2, hb3⟩ := definesKeyMatchAt_bounds l off ed hk
    subst h1 h2
    refine ⟨?_, hb2, hb3⟩
    show ed.span = _
    have hspan : ed.span = ⟨ed.span.start, ed.span.stop⟩ := rfl
    rw [hspan, hb1]

/-- C1 counterexample: for the defines grammar on `c1input`, tokenization
fixes the footer `# foo` and then emits the trailing Junk `\nxyz` whose span
lies after the footer, so concatenating header + all emitted entity/junk
spans in emission order + footer does not reproduce the buffer. -/
theorem c1_claim_counterexample :
    claimConcat c1input (definesTokenize c1input 0) ≠ c1input := by decide

/-- C1 witness: the amended round-trip equation holds at the counterexample
input, by applying the general theorem to the defines grammar. -/
theorem c1_roundtrip_witness :
    bufferConcat c1input (definesTokenize c1input 0) = c1input :=
  tokenize_roundtrip definesHdrEnd definesGE definesFooterMatchAt c1input 0
    (definesHdrEnd_le c1input)
    (fun off jid it off' jid' h => definesGE_contract c1input off jid it off' jid' h)
    (fun off e h => definesFooterMatchAt_bounds c1input off e h)

theorem pScan_le : ∀ (fuel : Nat) (l : List Char), pScan fuel l ≤ l.length := by
  intro fuel
  induction fuel with
  | zero => intro l; simp [pScan]
  | succ n ih =>
    intro l
    by_cases h : propCmtHead (l.drop (scanWhile isWS l))
    · simp only [pScan, h, if_true]
      have h1 := scanWhile_le isWS l
      have h2 := scanWhile_le (· != '\n') (l.drop (scanWhile isWS l))
      have h3 := ih ((l.drop (scanWhile isWS l)).drop
        (scanWhile (· != '\n') (l.drop (scanWhile isWS l))))
      simp only [List.length_drop] at h2 h3
      omega
    · simp only [pScan, h, if_false]
      exact scanWhile_le isWS l

theorem parsePairs_append : ∀ (xs : List (List Char)) (e : List Char) (n : Nat),
    parsePairs (xs ++ [e]) n = parsePairs xs n ++ [(e, n + xs.length)] := by
  intro xs
  induction xs with
  | nil => intro e n; simp [parsePairs]
  | cons k rest ih =>
    intro e n
    have hn : n + 1 + rest.length = n + (rest.length + 1) := by omega
    simp only [List.cons_append, List.append_eq, parsePairs, ih, List.length_cons, hn]

theorem dictGet_append_single (m : List (List Char × Nat)) (k' : List Char)
    (v : Nat) (k : List Char) :
    dictGet (m ++ [(k', v)]) k = if k' = k then some v else dictGet m k := by
  unfold dictGet
  rw [List.reverse_append]
  simp only [List.reverse_singleton, List.singleton_append, List.find?_cons]
  by_cases h : k' = k
  · simp [h]
  · have hb : ((k', v).1 == k) = false := by
      simp [h]
    simp [hb, h]

theorem dictGet_parsePairs (keys : List (List Char)) (k : List Char) (i : Nat) :
    dictGet (parsePairs keys 0) k = some i ↔
      (keys[i]? = some k ∧ ∀ j, i < j → keys[j]? ≠ some k) := by
  induction keys using List.reverseRecOn with
  | nil =>
    simp [parsePairs, dictGet]
  | append_singleton xs e ih =>
    rw [parsePairs_append, dictGet_append_single]
    by_cases he : e = k
    · subst he
      simp only [if_true, Nat.zero_add]
      constructor
      · intro h
        injection h with h
        subst h
        refine ⟨by simp [List.getElem?_concat_length], ?_⟩
        intro j hj
        rw [List.getElem?_eq_none (by simp; omega)]
        simp
      · rintro ⟨h1, h2⟩
        by_cases hi : i = xs.length
        · rw [hi]
        · rcases Nat.lt_or_ge i xs.length with hlt | hge
          · exact absurd (h2 xs.length (by omega))
              (by simp [List.getElem?_concat_length])
          · rw [List.getElem?_eq_none (by simp; omega)] at h1
            exact absurd h1 (by simp)
    · rw [if_neg he, ih]
      constructor
      · rintro ⟨h1, h2⟩
        have hilt : i < xs.length := by
          by_contra hge
          rw [List.getElem?_eq_none (by omega)] at h1
          exact absurd h1 (by simp)
        refine ⟨by rw [List.getElem?_append_left hilt]; exact h1, ?_⟩
        intro j hj hcon
        rcases Nat.lt_or_ge j xs.length with hlt | hge
        · rw [List.getElem?_append_left hlt] at hcon
          exact h2 j hj hcon
        · rcases Nat.lt_or_ge j (xs.length + 1) with hlt2 | hge2
          · have hjl : j = xs.length := by omega
            subst hjl
            rw [List.getElem?_concat_length] at hcon
            injection hcon with hcon
            exact he hcon
          · rw [List.getElem?_eq_none (by simp; omega)] at hcon
            exact absurd hcon (by simp)
      · rintro ⟨h1, h2⟩
        have hilt : i < xs.length := by
          by_contra hge
          rcases Nat.lt_or_ge i (xs.length + 1) with hlt2 | hge2
          · have hil : i = xs.length := by omega
            subst hil
            rw [List.getElem?_concat_length] at h1
            injection h1 with h1
            exact absurd h1 he
          · rw [List.getElem?_eq_none (by simp; omega)] at h1
            exact absurd h1 (by simp)
        refine ⟨by rw [List.getElem?_append_left hilt] at h1; exact h1, ?_⟩
        intro j hj hcon
        have hjlt : j < xs.length := (List.getElem?_eq_some_iff.mp hcon).1
        exact h2 j hj (by rw [List.getElem?_append_left hjlt]; exact hcon)

/-- C10: Parser.parse returns a pair (list, map): the list holds every
emitted Entity and Junk in emission order, and the map sends each key to a
valid index of the list — for a key occurring on several elements, the index
of the last occurrence — while all earlier occurrences remain present in the
list (the list is the full emission sequence, unmodified). -/
theorem parse_list_and_map (key : Item → List Char) (items : List Item) :
    (parseFold key items).1 = items ∧
    ∀ k i, dictGet (parseFold key items).2 k = some i ↔
      ((items.map key)[i]? = some k ∧ ∀ j, i < j → (items.map key)[j]? ≠ some k) := by
  refine ⟨rfl, ?_⟩
  intro k i
  exact dictGet_parsePairs (items.map key) k i

/-- C10 witness: at the duplicated-key properties input, applying the parse
theorem shows that index 1 (from the map) is the last list position whose
key is `a`. -/
theorem parse_list_and_map_witness :
    ((propTokenize c2input 0).items.map (Item.key c2input))[1]? = some ['a'] ∧
      ∀ j, 1 < j →
        ((propTokenize c2input 0).items.map (Item.key c2input))[j]? ≠ some ['a'] :=
  ((parse_list_and_map (Item.key c2input) (propTokenize c2input 0).items).2
    ['a'] 1).mp (by decide)

/-- C2 counterexample: parsing the properties buffer `a=1\na=2\n` yields two
items, both Entities (not Junk), both with decoded key `a`: the second
occurrence of the key is emitted as a duplicate Entity, not as Junk, so key
uniqueness fails. -/
theorem c2_counterexample :
    (propTokenize c2input 0).items.map Item.isJunk = [false, false] ∧
      (propTokenize c2input 0).items.map (Item.key c2input) = [['a'], ['a']] := by
  decide

/-- C2 (amended): parsing can yield two non-Junk entities with the same
decoded key — a repeated key is emitted again as a regular Entity (the
tokenizer never consults previously seen keys) — and Parser.parse's
key-to-index map keeps the index of the last occurrence. -/
theorem c2_amended_duplicates_kept :
    ((propTokenize c2input 0).items.length = 2 ∧
      ((propTokenize c2input 0).items.map Item.isJunk).all (· = false)) ∧
      dictGet (parseFold (Item.key c2input) (propTokenize c2input 0).items).2 ['a']
        = some 1 := by
  decide

theorem findNL_bounds (l : List Char) (off nl : Nat) (h : findNL l off = some nl) :
    off ≤ nl ∧ nl < l.length := by
  unfold findNL at h
  split at h
  case isTrue hc =>
    injection h with h
    omega
  case isFalse => exact absurd h (by simp)

theorem propValueLoop_ge (l : List Char) : ∀ (fuel off : Nat), off ≤ l.length →
    off ≤ (propValueLoop l fuel off).1 := by
  intro fuel
  induction fuel with
  | zero => intro off hoff; simp [propValueLoop]
  | succ n ih =>
    intro off hoff
    rcases h : findNL l off with _ | nl
    · simp only [propValueLoop, h]
      exact hoff
    · obtain ⟨h1, h2⟩ := findNL_bounds l off nl h
      simp only [propValueLoop, h]
      split
      · exact h1
      split
      · exact h1
      · calc off ≤ nl + 1 := by omega
          _ ≤ _ := ih (nl + 1) (by omega)

/-- C7: line-continuation parity. Whenever the current value line ends at a
newline (`contents.find` succeeds), the value continues onto the following
line — i.e. the value's end is not this first newline — if and only if the
number of consecutive trailing backslashes immediately before that newline
is odd; an even count (escaped backslashes) ends the value at this line. -/
theorem prop_value_continuation_parity (l : List Char) (fuel off nl : Nat)
    (hnl : findNL l off = some nl) :
    ((propValueLoop l (fuel + 1) off).1 ≠ nl ↔ escapedEndCount l off nl % 2 = 1) := by
  simp only [propValueLoop, hnl]
  by_cases h0 : escapedEndCount l off nl = 0
  · rw [if_pos h0]
    simp [h0]
  · rw [if_neg h0]
    by_cases he : escapedEndCount l off nl % 2 = 0
    · rw [if_pos he]
      constructor
      · intro hcon
        exact absurd rfl hcon
      · intro hodd
        exact absurd hodd (by omega)
    · rw [if_neg he]
      have hodd : escapedEndCount l off nl % 2 = 1 := by omega
      obtain ⟨h1, h2⟩ := findNL_bounds l off nl hnl
      have hge := propValueLoop_ge l fuel (nl + 1) (by omega)
      simp only [hodd]
      constructor
      · intro _
        trivial
      · intro _
        omega

/-- C7 witness: at the concrete input, the first value line ends at offset 4
with one trailing backslash (odd), and the theorem yields that the value
does not end there. -/
theorem prop_value_continuation_parity_witness :
    findNL c7input 2 = some 4 ∧
      ((propValueLoop c7input (c7input.length + 1) 2).1 ≠ 4 ↔
        escapedEndCount c7input 2 4 % 2 = 1) :=
  ⟨by decide, prop_value_continuation_parity c7input c7input.length 2 4 (by decide)⟩

theorem addRemoveIter_snd (left right : List (List Char)) :
    (addRemoveIter left right).map Prod.snd
      = ((left ++ right).dedup).insertionSort (· ≤ ·) := by
  unfold addRemoveIter
  rw [List.map_map]
  apply List.map_id''
  intro x
  by_cases h1 : x ∈ left <;> by_cases h2 : x ∈ right <;> simp [h1, h2]

theorem addRemoveIter_snd_sorted (left right : List (List Char)) :
    ((addRemoveIter left right).map Prod.snd).Sorted (· ≤ ·) := by
  rw [addRemoveIter_snd]
  exact List.sorted_insertionSort (· ≤ ·) ((left ++ right).dedup)

theorem addRemoveIter_snd_nodup (left right : List (List Char)) :
    ((addRemoveIter left right).map Prod.snd).Nodup := by
  rw [addRemoveIter_snd]
  exact (List.perm_insertionSort (· ≤ ·) ((left ++ right).dedup)).nodup_iff.mpr
    (List.nodup_dedup (left ++ right))

theorem addRemoveIter_snd_mem (left right : List (List Char)) (k : List Char) :
    k ∈ (addRemoveIter left right).map Prod.snd ↔ (k ∈ left ∨ k ∈ right) := by
  rw [addRemoveIter_snd,
    (List.perm_insertionSort (· ≤ ·) ((left ++ right).dedup)).mem_iff,
    List.mem_dedup, List.mem_append]

/-- C3: AddRemove diff completeness and determinism. With set_left(R) and
set_right(L), iteration yields each key of R ∪ L exactly once (no
duplicates), sorted by the ordering key (the default natural order of the
key itself), tagged `equal` iff the key is in both, `delete` iff only in R,
`add` iff only in L; and the output depends only on the two key sets, not on
the order (or multiplicity) of the input sequences. -/
theorem addRemove_diff_complete (R L : List (List Char)) :
    ((addRemoveIter R L).map Prod.snd).Nodup ∧
    (∀ k, k ∈ (addRemoveIter R L).map Prod.snd ↔ (k ∈ R ∨ k ∈ L)) ∧
    ((addRemoveIter R L).map Prod.snd).Sorted (· ≤ ·) ∧
    (∀ p ∈ addRemoveIter R L,
      (p.1 = "equal" ↔ p.2 ∈ R ∧ p.2 ∈ L) ∧
      (p.1 = "delete" ↔ p.2 ∈ R ∧ p.2 ∉ L) ∧
      (p.1 = "add" ↔ p.2 ∉ R ∧ p.2 ∈ L)) ∧
    (∀ R' L', R.toFinset = R'.toFinset → L.toFinset = L'.toFinset →
      addRemoveIter R L = addRemoveIter R' L') := by
  refine ⟨addRemoveIter_snd_nodup R L, addRemoveIter_snd_mem R L,
    addRemoveIter_snd_sorted R L, ?_, ?_⟩
  · intro p hp
    obtain ⟨x, hx, rfl⟩ := List.mem_map.mp hp
    have hmem : x ∈ R ∨ x ∈ L := by
      have := (List.perm_insertionSort (· ≤ ·) ((R ++ L).dedup)).mem_iff.mp hx
      simpa [List.mem_dedup, List.mem_append] using this
    by_cases h1 : x ∈ R <;> by_cases h2 : x ∈ L
    · simp [h1, h2]
    · simp [h1, h2]
    · simp [h1, h2]
    · exact absurd hmem (by simp [h1, h2])
  · intro R' L' hR hL
    have hRm : ∀ x : List Char, x ∈ R ↔ x ∈ R' := by
      intro x
      rw [← List.mem_toFinset, hR, List.mem_toFinset]
    have hLm : ∀ x : List Char, x ∈ L ↔ x ∈ L' := by
      intro x
      rw [← List.mem_toFinset, hL, List.mem_toFinset]
    have hperm : (R ++ L).dedup.Perm ((R' ++ L').dedup) := by
      rw [List.perm_ext_iff_of_nodup (List.nodup_dedup _) (List.nodup_dedup _)]
      intro a
      simp only [List.mem_dedup, List.mem_append]
      rw [hRm a, hLm a]
    have hsorteq : ((R ++ L).dedup).insertionSort (· ≤ ·)
        = ((R' ++ L').dedup).insertionSort (· ≤ ·) := by
      apply List.eq_of_perm_of_sorted
        (((List.perm_insertionSort _ _).trans hperm).trans
          (List.perm_insertionSort _ _).symm)
        (List.sorted_insertionSort _ _) (List.sorted_insertionSort _ _)
    unfold addRemoveIter
    rw [hsorteq]
    apply List.map_congr_left
    intro x _
    by_cases h1 : x ∈ R' <;> by_cases h2 : x ∈ L' <;>
      simp [hRm x, hLm x, h1, h2]

/-- C3 witness: at R = {a, b}, L = {b}, the element `a` is tagged `delete`
and that tag is equivalent to its one-sided membership. -/
theorem addRemove_diff_complete_witness :
    (("delete", ['a']).1 = "delete" ↔
      (("delete", ['a']).2 ∈ [['a'], ['b']] ∧ ("delete", ['a']).2 ∉ [['b']])) :=
  ((addRemove_diff_complete [['a'], ['b']] [['b']]).2.2.2.1
    ("delete", ['a']) (by decide)).2.1

theorem filterMap_sublist_map {α β : Type} (f : α → Option β) (g : α → β)
    (h : ∀ x, f x = none ∨ f x = some (g x)) :
    ∀ l : List α, (l.filterMap f).Sublist (l.map g) := by
  intro l
  induction l with
  | nil => simp
  | cons x xs ih =>
    rcases h x with hx | hx
    · rw [List.filterMap_cons_none hx, List.map_cons]
      exact ih.cons (g x)
    · rw [List.filterMap_cons_some hx, List.map_cons]
      exact ih.cons₂ (g x)

theorem computeMissings_sorted (verdict : List Char → String)
    (refKeys l10nKeys : List (List Char)) :
    (computeMissings verdict refKeys l10nKeys).Sorted (· ≤ ·) := by
  have hsub : (computeMissings verdict refKeys l10nKeys).Sublist
      ((addRemoveIter refKeys l10nKeys).map Prod.snd) := by
    apply filterMap_sublist_map
    intro p
    by_cases hc : p.1 = "delete" ∧ verdict p.2 = "error"
    · right
      simp [hc]
    · left
      simp [hc]
  exact List.Pairwise.sublist hsub (addRemoveIter_snd_sorted refKeys l10nKeys)

theorem ensureNewline_last (s : List Char) : (ensureNewline s).getLast? = some '\n' := by
  unfold ensureNewline
  by_cases h : s.getLast? = some '\n'
  · rw [if_pos h]
    exact h
  · rw [if_neg h]
    exact List.getLast?_concat s

/-- C4 (amended): the merge step appends the full verbatim source text of
every hard-missing entity in ascending key order — the diff engine's
iteration order, not reference-file order — after a single separator
newline (and before the non-Junk skip texts), with every appended chunk
guaranteed to end with a newline. -/
theorem merge_appends_keyorder_newline (ents : List RefEnt)
    (m : List (List Char × Nat)) (refC l10nC : List Char)
    (verdict : List Char → String) (refKeys l10nKeys : List (List Char))
    (skips : List SkipItem) (missingTexts skipTexts : List (List Char))
    (hm : (computeMissings verdict refKeys l10nKeys).mapM (lookupAll ents m)
      = some missingTexts)
    (hs : (((skips.insertionSort (fun a b => a.span.start ≤ b.span.start)).filter
        (fun s => ¬ s.isJunk)).map SkipItem.key).mapM (lookupAll ents m)
      = some skipTexts) :
    mergeContent ents m refC l10nC (computeMissings verdict refKeys l10nKeys)
        skips true
      = some ((if skips.insertionSort (fun a b => a.span.start ≤ b.span.start) = []
          then l10nC
          else spliceOut l10nC 0
            (skips.insertionSort (fun a b => a.span.start ≤ b.span.start)))
        ++ ((['\n'] :: missingTexts ++ skipTexts).map ensureNewline).flatten) ∧
    (computeMissings verdict refKeys l10nKeys).Sorted (· ≤ ·) ∧
    ∀ c ∈ (['\n'] :: missingTexts ++ skipTexts).map ensureNewline,
      c.getLast? = some '\n' := by
  refine ⟨?_, computeMissings_sorted verdict refKeys l10nKeys, ?_⟩
  · unfold mergeContent
    rw [if_neg (by simp)]
    rw [hm, hs]
  · intro c hc
    obtain ⟨x, -, rfl⟩ := List.mem_map.mp hc
    exact ensureNewline_last x

/-- C4 counterexample: with reference file order b, a and both entities
hard-missing from an empty localization, merge appends `a=1\n` then `b=2\n`
(ascending key order), which differs from appending in reference-file order
(`b=2\n` then `a=1\n`). -/
theorem c4_counterexample :
    mergeContent c4ents c4map ("b=2\na=1\n".toList) []
        (computeMissings (fun _ => "error") [['a'], ['b']] []) [] true
      = some ("\na=1\nb=2\n".toList) ∧
    ¬ mergeContent c4ents c4map ("b=2\na=1\n".toList) []
        (computeMissings (fun _ => "error") [['a'], ['b']] []) [] true
      = some (([] : List Char)
          ++ ((['\n'] :: c4ents.map RefEnt.all).map ensureNewline).flatten) := by
  decide

/-- C4 witness: the amended theorem applied at the counterexample inputs. -/
theorem merge_appends_keyorder_newline_witness :
    mergeContent c4ents c4map ("b=2\na=1\n".toList) []
        (computeMissings (fun _ => "error") [['a'], ['b']] []) [] true
      = some ((if ([] : List SkipItem).insertionSort
            (fun a b => a.span.start ≤ b.span.start) = []
          then ([] : List Char)
          else spliceOut [] 0 (([] : List SkipItem).insertionSort
            (fun a b => a.span.start ≤ b.span.start)))
        ++ ((['\n'] :: ["a=1\n".toList, "b=2\n".toList] ++ []).map ensureNewline).flatten) ∧
    (computeMissings (fun _ => "error") [['a'], ['b']] []).Sorted (· ≤ ·) ∧
    ∀ c ∈ (['\n'] :: ["a=1\n".toList, "b=2\n".toList] ++ []).map ensureNewline,
      c.getLast? = some '\n' :=
  merge_appends_keyorder_newline c4ents c4map ("b=2\na=1\n".toList) []
    (fun _ => "error") [['a'], ['b']] [] [] ["a=1\n".toList, "b=2\n".toList] []
    (by decide) (by decide)

/-- C8: for the defines-style grammar (canMerge = False), merge always
produces a byte-identical copy of the reference file, regardless of the
missing entities and skip spans: no splicing or appending is performed. -/
theorem merge_not_canMerge_copies_reference (ents : List RefEnt)
    (m : List (List Char × Nat)) (refC l10nC : List Char)
    (missing : List (List Char)) (skips : List SkipItem) :
    mergeContent ents m refC l10nC missing skips definesCaps.canMerge = some refC := by
  simp [mergeContent, definesCaps]

/-- C6: notify aggregation. For any number of attached observers, if every
observer returns `ignore` the overall verdict is `ignore` and no
statistics-only observer is notified; and if any observer returns `error`
the aggregate verdict is `error` (and stat observers are notified), even
when other observers return `warning` or anything else. -/
theorem notify_ignore_and_error (rvs : List String) :
    ((∀ v ∈ rvs, v = "ignore") → notifyAgg rvs = some ("ignore", false)) ∧
    ("error" ∈ rvs → notifyAgg rvs = some ("error", true)) := by
  constructor
  · intro h
    unfold notifyAgg
    rw [if_pos]
    rw [List.all_eq_true]
    intro v hv
    have := h v (List.mem_dedup.mp hv)
    simp [this]
  · intro h
    unfold notifyAgg
    have hmem : "error" ∈ rvs.dedup := List.mem_dedup.mpr h
    rw [if_neg]
    · have hfil : "error" ∈ rvs.dedup.filter (· != "ignore") := by
        rw [List.mem_filter]
        exact ⟨hmem, by decide⟩
      have hcont : (rvs.dedup.filter (· != "ignore")).contains "error" = true := by
        simpa using hfil
      rw [hcont]
    · intro hall
      rw [List.all_eq_true] at hall
      have := hall "error" hmem
      simp at this

/-- C6 witness: with verdicts {warning, error}, the aggregate is error and
stat observers are notified. -/
theorem notify_ignore_and_error_witness :
    notifyAgg ["warning", "error"] = some ("error", true) :=
  (notify_ignore_and_error ["warning", "error"]).2 (by decide)

/-- C9 counterexample: with one observer returning `warning` and another
`report` (two different non-error, non-ignore verdicts from the filter
contract's range), the assertion `len(rvs) == 1` in ContentComparer.notify
fails (modelled as `none`). -/
theorem c9_counterexample : notifyAgg ["warning", "report"] = none := by
  decide

/-- C9 (amended): the assertion in ContentComparer.notify holds whenever
every observer verdict is drawn from {error, warning, ignore}: after
discarding `ignore` and handling `error`, at most one distinct verdict can
remain. It can fail once a fourth verdict such as `report` is mixed with
`warning` (see the counterexample). -/
theorem notify_assert_three_verdicts (rvs : List String)
    (h : ∀ v ∈ rvs, v = "error" ∨ v = "warning" ∨ v = "ignore") :
    (notifyAgg rvs).isSome := by
  unfold notifyAgg
  by_cases hall : rvs.dedup.all (· == "ignore")
  · rw [if_pos hall]
    rfl
  · rw [if_neg hall]
    rcases hcont : (rvs.dedup.filter (· != "ignore")).contains "error" with _ | _
    · have hnotmem : "error" ∉ rvs.dedup.filter (· != "ignore") := by
        simpa using hcont
      have hsub : ∀ v ∈ rvs.dedup.filter (· != "ignore"), v = "warning" := by
        intro v hv
        obtain ⟨hvd, hvne⟩ := List.mem_filter.mp hv
        rcases h v (List.mem_dedup.mp hvd) with h1 | h1 | h1
        · exact absurd (h1 ▸ hv) hnotmem
        · exact h1
        · exfalso
          rw [h1] at hvne
          simp at hvne
      have hne : rvs.dedup.filter (· != "ignore") ≠ [] := by
        intro hnil
        apply hall
        rw [List.all_eq_true]
        intro v hv
        by_contra hvig
        have : v ∈ rvs.dedup.filter (· != "ignore") := by
          rw [List.mem_filter]
          refine ⟨hv, ?_⟩
          simpa using hvig
        rw [hnil] at this
        exact absurd this (List.not_mem_nil v)
      have hnodup : (rvs.dedup.filter (· != "ignore")).Nodup :=
        (List.nodup_dedup rvs).filter _
      rcases hval : rvs.dedup.filter (· != "ignore") with _ | ⟨v, t⟩
      · exact absurd hval hne
      · rcases ht : t with _ | ⟨w, t2⟩
        · rfl
        · exfalso
          rw [ht] at hval
          have hv := hsub v (by rw [hval]; exact List.mem_cons_self v _)
          have hw := hsub w (by rw [hval]; simp)
          rw [hval] at hnodup
          have hvw : v ≠ w := by
            have := List.nodup_cons.mp hnodup
            exact fun hvweq => this.1 (hvweq ▸ List.mem_cons_self w t2)
          exact hvw (hv.trans hw.symm)
    · rfl

/-- C9 witness: the amended assertion-safety theorem applied to the verdict
combination {warning, warning, ignore}. -/
theorem notify_assert_three_verdicts_witness :
    (notifyAgg ["warning", "warning", "ignore"]).isSome :=
  notify_assert_three_verdicts ["warning", "warning", "ignore"] (by decide)

theorem changedTimes100_eq (sm : List (String × Nat)) :
    changedTimes100 sm = (summaryGet sm "changed").getD 0 * 100 := by
  unfold changedTimes100
  rcases summaryGet sm "changed" with _ | c <;> simp

/-- C5 (amended): when the classified total (changed + unchanged + report +
missing + missingInFiles) is nonzero, the dashboard-row completion equals
changed·100 divided by that total using integer division (floor, which on
these nonnegative values rounds toward zero); but when the total is zero,
toExhibit's unguarded division raises ZeroDivisionError (`none`) instead of
producing zero — only the text serialization's percentage is 0 there. -/
theorem completion_rate (sm : List (String × Nat)) :
    (summaryTotal sm ≠ 0 →
      exhibitRate sm
        = some ((summaryGet sm "changed").getD 0 * 100 / summaryTotal sm)) ∧
    (summaryTotal sm = 0 → exhibitRate sm = none ∧ serializeRate sm = 0) ∧
    serializeRate sm = (if summaryTotal sm = 0 then 0
      else (summaryGet sm "changed").getD 0 * 100 / summaryTotal sm) := by
  refine ⟨?_, ?_, ?_⟩
  · intro h
    unfold exhibitRate
    rw [if_neg h, changedTimes100_eq]
  · intro h
    unfold exhibitRate serializeRate
    rw [if_pos h, if_pos h]
    exact ⟨rfl, rfl⟩
  · unfold serializeRate
    by_cases h : summaryTotal sm = 0
    · rw [if_pos h, if_pos h]
    · rw [if_neg h, if_neg h, changedTimes100_eq]

/-- C5 counterexample: a reachable per-locale summary with only obsolete
entries has classified total 0; the exhibit dashboard row's completion
computation divides by zero (`none`) rather than producing 0. -/
theorem c5_counterexample :
    exhibitRate [("obsolete", 1)] = none ∧
      ¬ exhibitRate [("obsolete", 1)] = some 0 := by
  decide

/-- C5 witness: the amended theorem applied to a summary with changed = 1,
unchanged = 1 (total 2, completion 50). -/
theorem completion_rate_witness :
    exhibitRate [("changed", 1), ("unchanged", 1)]
      = some ((summaryGet [("changed", 1), ("unchanged", 1)] "changed").getD 0 * 100
          / summaryTotal [("changed", 1), ("unchanged", 1)]) :=
  (completion_rate [("changed", 1), ("unchanged", 1)]).1 (by decide)
